import Mathlib

/-!
Verification of the orchestration and reconciliation engine of the
admin-product repository against its natural-language specification.

The relevant program fragments are shallowly embedded below:
* `classify_error` — ErrorRecoveryAgent.classify_error (docs/ARCHITECTURE.md §6);
* `retry_with_backoff` — the rate-limit retry helper (troubleshooting guide);
* `handleJobAction` — the job action handler of the JobMonitor component;
* `detect_duplicates` — ProductProcessingAgent.detect_duplicates;
* `detect_outliers` — PriceValidationAgent.detect_outliers;
* `validate_product_data`, `normalize_product_name` — data-validation helpers;
* `update_prices` row construction and the Catalog Store write semantics
  (current_prices UNIQUE(store_product_id) upsert, price_history plain insert);
* a job-orchestrator state machine modelled from the spec (its backend
  implementation is not part of the repository snapshot).

Machine reals (Python floats) are modelled as rationals; Python dicts are
modelled as structures with `Option` fields where the code uses `.get`.
-/

/-! ## Failure classification (ErrorRecoveryAgent.classify_error)

The Python code inspects only the stringified error:

    if "network" in str(error).lower() or "timeout" in str(error).lower(): ...
    elif "rate limit" in str(error).lower() or "429" in str(error): ...
    elif "parsing" in str(error).lower() or "html" in str(error).lower(): ...
    elif "database" in str(error).lower() or "connection" in str(error).lower(): ...
    else: unknown
-/

/-- A failure raised by an adapter: structured metadata (status code and
exception category) together with the human-readable message that
`str(error)` yields. -/
structure AdapterFailure where
  status_code : Option Nat
  category : String
  message : String
deriving DecidableEq

/-- Lowercasing of `str(error)` on the character list of the message. -/
def lowerChars (s : List Char) : List Char := s.map Char.toLower

/-- The Python substring operator `pat in s`: does `pat` occur as a
contiguous fragment of `s`? -/
def containsSub (pat : List Char) : List Char → Bool
  | [] => pat.isEmpty
  | c :: rest => ((c :: rest).take pat.length == pat) || containsSub pat rest

/-- ErrorRecoveryAgent.classify_error: substring tests on the stringified
error, in the order of the Python if/elif chain.  The `"429"` test is on the
un-lowered string, exactly as in the source. -/
def classify_error (e : AdapterFailure) : String :=
  let s := lowerChars e.message.toList
  if containsSub "network".toList s || containsSub "timeout".toList s then
    "network_error"
  else if containsSub "rate limit".toList s || containsSub "429".toList e.message.toList then
    "rate_limit"
  else if containsSub "parsing".toList s || containsSub "html".toList s then
    "parsing_error"
  else if containsSub "database".toList s || containsSub "connection".toList s then
    "database_error"
  else
    "unknown"

/-! ## Rate-limit retry helper (troubleshooting guide)

    async def retry_with_backoff(func, max_retries=3):
        for attempt in range(max_retries):
            try:
                return await func()
            except RateLimitError:
                wait_time = (2 ** attempt) + random.uniform(0, 1)
                await asyncio.sleep(wait_time)
        raise Exception("Max retries exceeded")
-/

/-- Outcome of one invocation of `func`. -/
inductive CallOutcome (α : Type) where
  | ok (a : α)
  | rateLimitError
deriving DecidableEq

/-- Result of `retry_with_backoff`, together with the sleep durations. -/
inductive RetryResult (α : Type) where
  | ok (a : α)
  | maxRetriesExceeded
deriving DecidableEq

/-- The loop of `retry_with_backoff`.  `f` gives the outcome of the call at
each attempt index, `jitter` the value drawn by `random.uniform(0, 1)`;
`remaining` is the number of loop iterations left (`max_retries - attempt`)
and `waits` accumulates the sleep durations in order. -/
def retry_go {α : Type} (f : Nat → CallOutcome α) (jitter : Nat → ℚ) :
    Nat → Nat → List ℚ → RetryResult α × List ℚ
  | 0, _, waits => (.maxRetriesExceeded, waits)
  | remaining + 1, attempt, waits =>
    match f attempt with
    | .ok a => (.ok a, waits)
    | .rateLimitError =>
        retry_go f jitter remaining (attempt + 1) (waits ++ [2 ^ attempt + jitter attempt])

/-- Entry point of `retry_with_backoff(func, max_retries)`. -/
def retry_with_backoff {α : Type} (f : Nat → CallOutcome α) (jitter : Nat → ℚ)
    (max_retries : Nat) : RetryResult α × List ℚ :=
  retry_go f jitter max_retries 0 []

/-! ## Job actions in the JobMonitor component

    const handleJobAction = (jobId, action) => {
      setJobs(prev => prev.map(job => {
        if (job.id === jobId) {
          switch (action) {
            case "pause":  return { ...job, status: "paused" }
            case "resume": return { ...job, status: "running" }
            case "stop":   return { ...job, status: "failed" }
            case "retry":  return { ...job, status: "pending", progress: 0,
                                    productsProcessed: 0, errorCount: 0 }
          } }
        return job })) }
-/

/-- Job statuses used by the JobMonitor component. -/
inductive JobStatus where
  | pending | running | completed | failed | paused
deriving DecidableEq

/-- The user-triggered job actions. -/
inductive JobAction where
  | pause | resume | stop | retry
deriving DecidableEq

/-- The fields of a ScrapingJob that `handleJobAction` reads or writes. -/
structure UiJob where
  id : String
  status : JobStatus
  progress : Nat
  productsProcessed : Nat
  errorCount : Nat
deriving DecidableEq

/-- State update of `handleJobAction` applied to the job list. -/
def handleJobAction (jobs : List UiJob) (jobId : String) (action : JobAction) :
    List UiJob :=
  jobs.map fun job =>
    if job.id = jobId then
      match action with
      | .pause => { job with status := .paused }
      | .resume => { job with status := .running }
      | .stop => { job with status := .failed }
      | .retry =>
          { job with status := .pending, progress := 0, productsProcessed := 0, errorCount := 0 }
    else job

/-- Terminal statuses of the job state machine (`Succeeded`/`Failed` map to
`completed`/`failed` in the component's status vocabulary). -/
def isTerminalStatus : JobStatus → Bool
  | .completed => true
  | .failed => true
  | _ => false

/-- The status each action writes, independent of the current status. -/
def actionStatus : JobAction → JobStatus
  | .pause => .paused
  | .resume => .running
  | .stop => .failed
  | .retry => .pending

/-! ### Claims C4, C8, C3 -/

/-- Claim C4 counterexample: two failures with identical structured metadata
(status code 429, same category) but different message texts are assigned
different kinds, so classification does depend on substring matching of the
stringified error, not only on structured metadata. -/
theorem C4_counterexample :
    (AdapterFailure.mk (some 429) "http" "network down").status_code
        = (AdapterFailure.mk (some 429) "http" "slow response").status_code ∧
      (AdapterFailure.mk (some 429) "http" "network down").category
        = (AdapterFailure.mk (some 429) "http" "slow response").category ∧
      classify_error (AdapterFailure.mk (some 429) "http" "network down") = "network_error" ∧
      classify_error (AdapterFailure.mk (some 429) "http" "slow response") = "unknown" := by
  refine ⟨rfl, rfl, ?_, ?_⟩ <;> rfl

/-- Claim C4 (amended): the Failure Classifier assigns a kind using only the
human-readable message text, by substring matching on the stringified error:
for every two failures whose message texts are equal, the assigned kind is
equal regardless of the structured metadata fields (status code, exception
category). -/
theorem C4_classification_depends_only_on_message (e1 e2 : AdapterFailure)
    (h : e1.message = e2.message) : classify_error e1 = classify_error e2 := by
  unfold classify_error
  rw [h]

/-- Concrete instance of `C4_classification_depends_only_on_message`. -/
theorem C4_witness :
    classify_error (AdapterFailure.mk (some 500) "io-x" "timeout while reading")
      = classify_error (AdapterFailure.mk none "other" "timeout while reading") :=
  C4_classification_depends_only_on_message _ _ rfl

/-- Trace of `retry_go` when every attempted call raises RateLimitError:
the loop performs exactly `remaining` further attempts, sleeping
`2 ^ attempt + jitter` before each subsequent one, and then raises
"Max retries exceeded". -/
theorem retry_go_all_rate_limited {α : Type} (f : Nat → CallOutcome α) (j : Nat → ℚ) :
    ∀ remaining attempt waits,
      (∀ k, attempt ≤ k → k < attempt + remaining → f k = .rateLimitError) →
      retry_go f j remaining attempt waits
        = (.maxRetriesExceeded, waits ++ (List.range' attempt remaining).map fun k => 2 ^ k + j k) := by
  intro remaining
  induction remaining with
  | zero => intro attempt waits _; simp [retry_go]
  | succ m ih =>
      intro attempt waits h
      have hf := h attempt (Nat.le_refl _) (by omega)
      simp only [retry_go, hf]
      rw [ih (attempt + 1) _ (fun k hk1 hk2 => h k (by omega) (by omega))]
      rw [List.range'_succ]
      simp

/-- Claim C8 counterexample: a call whose every attempt raises RateLimitError
is retried with exponential-backoff waits `2 ^ attempt + jitter` (not a
provider-declared or default cooldown), and the rate-limited retries are
bounded by the same `max_retries` argument that bounds all retries of this
helper — with `max_retries = 3` the third rate-limited attempt exhausts the
limit and "Max retries exceeded" is raised.  There is no separate rate-limit
retry ceiling. -/
theorem C8_counterexample :
    retry_with_backoff (fun _ => (CallOutcome.rateLimitError : CallOutcome Nat))
        (fun _ => 0) 3
      = (.maxRetriesExceeded, [1, 2, 4]) := by
  rw [retry_with_backoff, retry_go_all_rate_limited _ _ 3 0 [] (fun _ _ _ => rfl)]
  norm_num [List.range']

/-- Claim C8 (amended): when a batch fails with kind RateLimited, the helper
waits `2 ^ attempt` plus a unit jitter and then retries; rate-limited retries
do count against the single `max_retries` limit of the helper (there is no
separate rate-limit ceiling): `max_retries` consecutive rate-limited attempts
exhaust it and raise "Max retries exceeded", after sleeping
`2 ^ k + jitter k` for each attempt `k < max_retries`. -/
theorem C8_rate_limited_counts_against_max_retries {α : Type}
    (f : Nat → CallOutcome α) (j : Nat → ℚ) (n : Nat)
    (h : ∀ k, k < n → f k = .rateLimitError) :
    retry_with_backoff f j n
      = (.maxRetriesExceeded, (List.range n).map fun k => 2 ^ k + j k) := by
  rw [retry_with_backoff, retry_go_all_rate_limited f j n 0 [] (fun k _ hk => h k (by omega))]
  rw [List.range_eq_range']
  simp

/-- Concrete instance of `C8_rate_limited_counts_against_max_retries`. -/
theorem C8_witness :
    retry_with_backoff (fun _ => (CallOutcome.rateLimitError : CallOutcome Nat))
        (fun _ => 0) 2
      = (.maxRetriesExceeded, (List.range 2).map fun k => 2 ^ k + (0 : ℚ)) :=
  C8_rate_limited_counts_against_max_retries _ _ 2 (fun _ _ => rfl)

/-- Claim C3 counterexample: the user-triggered "retry" action moves a Job
whose state is terminal (`completed`, i.e. Succeeded) back to `pending`
(i.e. Queued), resetting its counters — a backward transition out of a
terminal state, contradicting both monotonicity and terminal immutability. -/
theorem C3_counterexample :
    handleJobAction [UiJob.mk "j1" .completed 100 50 0] "j1" .retry
        = [UiJob.mk "j1" .pending 0 0 0] ∧
      isTerminalStatus .completed = true ∧
      isTerminalStatus .pending = false := by
  decide

/-- Claim C3 (amended): every user-triggered job action overwrites the
targeted Job's state with a fixed target status (`pause ↦ paused`,
`resume ↦ running`, `stop ↦ failed`, `retry ↦ pending`) regardless of the
Job's current state — in particular `retry` moves even a terminal Job back to
`pending`, so backward transitions are reachable and terminal states are not
immutable; Jobs with a different id are left unchanged. -/
theorem C3_action_overwrites_status (jobs : List UiJob) (jobId : String)
    (a : JobAction) (j : UiJob) (hj : j ∈ handleJobAction jobs jobId a) :
    (j.id ≠ jobId ∧ j ∈ jobs) ∨ (j.id = jobId ∧ j.status = actionStatus a) := by
  rw [handleJobAction, List.mem_map] at hj
  obtain ⟨job, hmem, heq⟩ := hj
  by_cases h : job.id = jobId
  · right
    rw [if_pos h] at heq
    cases a <;> (subst heq; exact ⟨h, rfl⟩)
  · left
    rw [if_neg h] at heq
    subst heq
    exact ⟨h, hmem⟩

/-- Concrete instance of `C3_action_overwrites_status`. -/
theorem C3_witness :
    ((UiJob.mk "a" .paused 1 1 1).id ≠ "a" ∧
        UiJob.mk "a" .paused 1 1 1 ∈ [UiJob.mk "a" .running 1 1 1]) ∨
      ((UiJob.mk "a" .paused 1 1 1).id = "a" ∧
        (UiJob.mk "a" .paused 1 1 1).status = actionStatus .pause) :=
  C3_action_overwrites_status [UiJob.mk "a" .running 1 1 1] "a" .pause
    (UiJob.mk "a" .paused 1 1 1) (by decide)

/-! ## Deduplication (ProductProcessingAgent.detect_duplicates)

    for i, product1 in enumerate(products):
        for j, product2 in enumerate(products[i+1:], i+1):
            similarity = self.calculate_similarity(product1, product2)
            if similarity > 0.85:  # Threshold for duplicate detection
                duplicates.append({ "product1_id": ..., "product2_id": ...,
                                    "similarity": similarity,
                                    "merge_strategy": ... })

`calculate_similarity` and `determine_merge_strategy` are abstract in the
source (the former's body is `pass`), so both are parameters here; the
entities themselves stand in for their ids. -/

/-- A DuplicateCandidate as appended by `detect_duplicates`. -/
structure DupCandidate (P S : Type) where
  product1 : P
  product2 : P
  similarity : ℚ
  merge_strategy : S
deriving DecidableEq

/-- ProductProcessingAgent.detect_duplicates: each entity is scored against
every entity occurring later in the batch; pairs scoring strictly above 0.85
are recorded in iteration order. -/
def detect_duplicates {P S : Type} (sim : P → P → ℚ) (strat : P → P → S) :
    List P → List (DupCandidate P S)
  | [] => []
  | p :: rest =>
    (rest.filterMap fun q =>
      if 0.85 < sim p q then some ⟨p, q, sim p q, strat p q⟩ else none)
      ++ detect_duplicates sim strat rest

/-- Every recorded DuplicateCandidate comes from a position pair `i < j` of
the batch, carries the similarity of its two entities, and scores strictly
above 0.85. -/
theorem mem_detect_duplicates {P S : Type} (sim : P → P → ℚ) (strat : P → P → S) :
    ∀ (l : List P) (d : DupCandidate P S), d ∈ detect_duplicates sim strat l →
      ∃ i j : Fin l.length, (i : ℕ) < (j : ℕ) ∧ l.get i = d.product1 ∧
        l.get j = d.product2 ∧ d.similarity = sim d.product1 d.product2 ∧
        d.merge_strategy = strat d.product1 d.product2 ∧ (0.85 : ℚ) < d.similarity
  | [], d, h => by simp [detect_duplicates] at h
  | p :: rest, d, h => by
      rw [detect_duplicates, List.mem_append] at h
      rcases h with h | h
      · rw [List.mem_filterMap] at h
        obtain ⟨q, hq, hqd⟩ := h
        by_cases hc : (0.85 : ℚ) < sim p q
        · rw [if_pos hc] at hqd
          obtain ⟨k, hk⟩ := List.mem_iff_get.mp hq
          injection hqd with hqd
          subst hqd
          exact ⟨⟨0, by simp⟩, k.succ, by simp, rfl, by simpa using hk, rfl, rfl, hc⟩
        · rw [if_neg hc] at hqd
          exact absurd hqd (by simp)
      · obtain ⟨i, j, hij, hi, hj, hs, hm, hc⟩ := mem_detect_duplicates sim strat rest d h
        exact ⟨i.succ, j.succ, by simpa using hij, by simpa using hi, by simpa using hj,
          hs, hm, hc⟩

/-- Every pair that occurs in batch order and scores strictly above 0.85 is
recorded by `detect_duplicates`. -/
theorem detect_duplicates_complete {P S : Type} (sim : P → P → ℚ) (strat : P → P → S) :
    ∀ (l1 : List P) (p : P) (l2 : List P) (q : P) (l3 : List P),
      (0.85 : ℚ) < sim p q →
      DupCandidate.mk p q (sim p q) (strat p q)
        ∈ detect_duplicates sim strat (l1 ++ p :: l2 ++ q :: l3)
  | [], p, l2, q, l3, h => by
      rw [List.nil_append]
      simp only [detect_duplicates]
      apply List.mem_append_left
      rw [List.mem_filterMap]
      exact ⟨q, by simp, by rw [if_pos h]⟩
  | a :: l1, p, l2, q, l3, h => by
      rw [List.cons_append]
      simp only [detect_duplicates]
      exact List.mem_append_right _ (detect_duplicates_complete sim strat l1 p l2 q l3 h)

/-- All ordered pairs (earlier element, later element) of a list, in the
iteration order of the double loop. -/
def allPairs {P : Type} : List P → List (P × P)
  | [] => []
  | p :: rest => (rest.map fun q => (p, q)) ++ allPairs rest

theorem mem_allPairs_left {P : Type} :
    ∀ (l : List P) (x : P × P), x ∈ allPairs l → x.1 ∈ l
  | p :: rest, x, h => by
      rw [allPairs, List.mem_append] at h
      rcases h with h | h
      · obtain ⟨q, _, hq⟩ := List.mem_map.mp h
        rw [← hq]
        exact List.mem_cons_self _ _
      · exact List.mem_cons_of_mem _ (mem_allPairs_left rest x h)

theorem allPairs_nodup {P : Type} : ∀ (l : List P), l.Nodup → (allPairs l).Nodup
  | [], _ => by simp [allPairs]
  | p :: rest, h => by
      rw [allPairs, List.nodup_append]
      obtain ⟨hp, hrest⟩ := List.nodup_cons.mp h
      refine ⟨hrest.map fun a b hab => ?_, allPairs_nodup rest hrest, ?_⟩
      · injection hab
      · intro x hx hx2
        obtain ⟨q, _, hq⟩ := List.mem_map.mp hx
        exact hp (by simpa [← hq] using mem_allPairs_left rest x hx2)

/-- Filtering with an if-then-some-else-none yields a sublist of the map. -/
theorem filterMap_if_sublist_map {A B : Type} (g : A → B) (c : A → Prop)
    [DecidablePred c] :
    ∀ l : List A,
      List.Sublist (l.filterMap fun a => if c a then some (g a) else none) (l.map g)
  | [] => List.Sublist.refl _
  | a :: l => by
      rw [List.filterMap_cons, List.map_cons]
      by_cases h : c a
      · rw [if_pos h]
        exact List.Sublist.cons₂ _ (filterMap_if_sublist_map g c l)
      · rw [if_neg h]
        exact List.Sublist.cons _ (filterMap_if_sublist_map g c l)

/-- The pairs recorded by `detect_duplicates` form a sublist of `allPairs`. -/
theorem detect_duplicates_pairs_sublist {P S : Type} (sim : P → P → ℚ)
    (strat : P → P → S) :
    ∀ l : List P,
      List.Sublist
        ((detect_duplicates sim strat l).map fun d => (d.product1, d.product2))
        (allPairs l)
  | [] => by simp [detect_duplicates, allPairs]
  | p :: rest => by
      rw [detect_duplicates, allPairs, List.map_append]
      refine List.Sublist.append ?_ (detect_duplicates_pairs_sublist sim strat rest)
      rw [List.map_filterMap]
      have : ∀ q : P,
          (Option.map (fun d : DupCandidate P S => (d.product1, d.product2))
            (if 0.85 < sim p q then some ⟨p, q, sim p q, strat p q⟩ else none))
          = if 0.85 < sim p q then some (p, q) else none := by
        intro q
        by_cases h : (0.85 : ℚ) < sim p q <;> simp [h]
      simp only [this]
      exact filterMap_if_sublist_map _ _ rest

/-! ### Claims C6 and C10 -/

/-- Claim C6 counterexample: a pair whose similarity score is exactly 0.85 is
not recorded as a DuplicateCandidate, because the code tests
`similarity > 0.85` strictly; the claim's "greater than or equal to 0.85"
fails at exactly 0.85. -/
theorem C6_counterexample :
    ((0.85 : ℚ) ≥ 0.85) ∧
      detect_duplicates (fun _ _ => (0.85 : ℚ)) (fun _ _ => (0 : ℕ)) [(1 : ℕ), 2] = [] := by
  refine ⟨le_refl _, ?_⟩
  simp [detect_duplicates]

/-- Claim C6 (amended): a pair of compared NormalizedEntities becomes a
DuplicateCandidate exactly when its similarity score is strictly greater than
0.85: every recorded candidate carries the similarity of its two entities and
scores strictly above 0.85, and conversely every pair occurring in batch
order whose score is strictly above 0.85 is recorded; a pair scoring exactly
0.85 is not a DuplicateCandidate. -/
theorem C6_candidate_iff_above_threshold {P S : Type} (sim : P → P → ℚ)
    (strat : P → P → S) (l : List P) :
    (∀ d ∈ detect_duplicates sim strat l,
        d.similarity = sim d.product1 d.product2 ∧ (0.85 : ℚ) < d.similarity) ∧
      (∀ (l1 : List P) (p : P) (l2 : List P) (q : P) (l3 : List P),
        l = l1 ++ p :: l2 ++ q :: l3 → (0.85 : ℚ) < sim p q →
        DupCandidate.mk p q (sim p q) (strat p q) ∈ detect_duplicates sim strat l) := by
  constructor
  · intro d hd
    obtain ⟨_, _, _, _, _, hs, _, hc⟩ := mem_detect_duplicates sim strat l d hd
    exact ⟨hs, hc⟩
  · intro l1 p l2 q l3 hl hc
    rw [hl]
    exact detect_duplicates_complete sim strat l1 p l2 q l3 hc

/-- Concrete instance of `C6_candidate_iff_above_threshold`: in the batch
`[1, 2]` under a constant similarity of 0.9, the pair is recorded. -/
theorem C6_witness :
    DupCandidate.mk (1 : ℕ) 2 ((0.9 : ℚ)) (0 : ℕ)
      ∈ detect_duplicates (fun _ _ => (0.9 : ℚ)) (fun _ _ => (0 : ℕ)) [1, 2] :=
  (C6_candidate_iff_above_threshold (fun _ _ => (0.9 : ℚ)) (fun _ _ => (0 : ℕ))
    [1, 2]).2 [] 1 [] 2 [] rfl (by norm_num)

/-- Claim C10 (confirmed): during a deduplication pass over a batch of
distinct entities, no entity is compared with itself (no recorded self-pair),
every unordered pair is scored at most once (the recorded pair list has no
repetition, in either orientation), and in every recorded pair the first
entity occurs earlier in the batch than the second. -/
theorem C10_each_pair_scored_once {P S : Type} (sim : P → P → ℚ)
    (strat : P → P → S) (l : List P) (hl : l.Nodup) :
    (∀ d ∈ detect_duplicates sim strat l, d.product1 ≠ d.product2) ∧
      ((detect_duplicates sim strat l).map fun d => (d.product1, d.product2)).Nodup ∧
      (∀ d ∈ detect_duplicates sim strat l, ∃ i j : Fin l.length,
        (i : ℕ) < (j : ℕ) ∧ l.get i = d.product1 ∧ l.get j = d.product2) ∧
      (∀ d ∈ detect_duplicates sim strat l, ∀ d' ∈ detect_duplicates sim strat l,
        ¬(d.product1 = d'.product2 ∧ d.product2 = d'.product1)) := by
  refine ⟨?_, ?_, ?_, ?_⟩
  · intro d hd heq
    obtain ⟨i, j, hij, hi, hj, -, -, -⟩ := mem_detect_duplicates sim strat l d hd
    have hij2 : i = j := by
      apply (List.Nodup.get_inj_iff hl).mp
      rw [hi, hj, heq]
    rw [hij2] at hij
    exact lt_irrefl _ hij
  · exact (detect_duplicates_pairs_sublist sim strat l).nodup (allPairs_nodup l hl)
  · intro d hd
    obtain ⟨i, j, hij, hi, hj, -, -, -⟩ := mem_detect_duplicates sim strat l d hd
    exact ⟨i, j, hij, hi, hj⟩
  · intro d hd d' hd' ⟨h1, h2⟩
    obtain ⟨i, j, hij, hi, hj, -, -, -⟩ := mem_detect_duplicates sim strat l d hd
    obtain ⟨i', j', hij', hi', hj', -, -, -⟩ := mem_detect_duplicates sim strat l d' hd'
    have hij2 : i = j' := by
      apply (List.Nodup.get_inj_iff hl).mp
      rw [hi, hj', h1]
    have hji2 : j = i' := by
      apply (List.Nodup.get_inj_iff hl).mp
      rw [hj, hi', h2]
    rw [hij2, hji2] at hij
    omega

/-- Concrete instance of `C10_each_pair_scored_once`: the recorded pair list
of the batch `[1, 2, 3]` under a constant similarity of 0.9 has no
repetition. -/
theorem C10_witness :
    ((detect_duplicates (fun _ _ => (0.9 : ℚ)) (fun _ _ => (0 : ℕ)) [1, 2, 3]).map
      fun d => (d.product1, d.product2)).Nodup :=
  (C10_each_pair_scored_once (fun _ _ => (0.9 : ℚ)) (fun _ _ => (0 : ℕ)) [1, 2, 3]
    (by decide)).2.1

/-! ## Outlier detection (PriceValidationAgent.detect_outliers)

    for product in state["validated_products"]:
        historical_prices = await self.price_history.get_prices(product["id"])
        if len(historical_prices) > 10:  # Need enough data points
            is_outlier = self.outlier_detector.detect(product["price"], historical_prices)
            if is_outlier:
                outliers.append({ "product_id": ..., "current_price": ...,
                                  "expected_range": ..., "confidence": ... })

The statistical detector (`OutlierDetector.detect`), the expected range and
the confidence are abstract in the source, so they are parameters here. -/

/-- The fields of a validated product that `detect_outliers` reads. -/
structure ValidatedProduct where
  id : String
  price : ℚ
deriving DecidableEq

/-- An entry of the `outliers` list. -/
structure OutlierFlag where
  product_id : String
  current_price : ℚ
  expected_range : ℚ × ℚ
  confidence : ℚ
deriving DecidableEq

/-- PriceValidationAgent.detect_outliers: a product is run through the
detector, and possibly flagged, only when strictly more than 10 historical
prices exist for it. -/
def detect_outliers (get_prices : String → List ℚ) (detect : ℚ → List ℚ → Bool)
    (expected_range : List ℚ → ℚ × ℚ) (confidence : ℚ) :
    List ValidatedProduct → List OutlierFlag
  | [] => []
  | p :: rest =>
    (if 10 < (get_prices p.id).length then
      (if detect p.price (get_prices p.id) then
        [⟨p.id, p.price, expected_range (get_prices p.id), confidence⟩]
      else [])
    else [])
      ++ detect_outliers get_prices detect expected_range confidence rest

/-! ### Claim C5 -/

/-- Claim C5 counterexample: with exactly 10 prior history points the
expected-range check is never performed — even a detector that would flag
every value produces no outlier flag, because the code requires
`len(historical_prices) > 10`, not `>= 10`. -/
theorem C5_counterexample :
    detect_outliers (fun _ => List.replicate 10 1) (fun _ _ => true)
        (fun _ => (0, 0)) 1 [ValidatedProduct.mk "p1" 50] = [] := by
  simp [detect_outliers]

/-- Claim C5 (amended): for every entity/provider pair, the validation stage
flags an observation as an outlier only if strictly more than 10 (that is, at
least 11) prior history points exist for that pair; with 10 or fewer prior
points no observation is ever flagged, regardless of its value and of the
detector. -/
theorem C5_flag_requires_more_than_ten_points (get_prices : String → List ℚ)
    (detect : ℚ → List ℚ → Bool) (expected_range : List ℚ → ℚ × ℚ)
    (confidence : ℚ) :
    ∀ (l : List ValidatedProduct) (o : OutlierFlag),
      o ∈ detect_outliers get_prices detect expected_range confidence l →
      10 < (get_prices o.product_id).length
  | p :: rest, o, h => by
      rw [detect_outliers, List.mem_append] at h
      rcases h with h | h
      · by_cases hlen : 10 < (get_prices p.id).length
        · rw [if_pos hlen] at h
          by_cases hdet : detect p.price (get_prices p.id)
          · rw [if_pos hdet, List.mem_singleton] at h
            rw [h]
            exact hlen
          · rw [if_neg hdet] at h
            exact absurd h (List.not_mem_nil o)
        · rw [if_neg hlen] at h
          exact absurd h (List.not_mem_nil o)
      · exact C5_flag_requires_more_than_ten_points get_prices detect expected_range
          confidence rest o h

/-- Concrete instance of `C5_flag_requires_more_than_ten_points`: with 11
history points the always-true detector does flag, and the history indeed has
more than 10 points. -/
theorem C5_witness :
    10 < ((fun _ => List.replicate 11 (1 : ℚ)) "p1").length :=
  C5_flag_requires_more_than_ten_points (fun _ => List.replicate 11 1)
    (fun _ _ => true) (fun _ => (0, 0)) 1 [ValidatedProduct.mk "p1" 50]
    (OutlierFlag.mk "p1" 50 (0, 0) 1)
    (by simp [detect_outliers])

/-! ## Validation and Catalog Store writes

From the troubleshooting guide:

    def validate_product_data(product):
        errors = []
        if not product.get('name') or len(product['name']) < 3:
            errors.append("Product name too short")
        if product.get('price', 0) <= 0:
            errors.append("Invalid price")
        if not product.get('category'):
            errors.append("Missing category")
        return errors

From DatabaseOperationsAgent.update_prices: one `current_prices` row (with
`last_updated = datetime.now()` taken at translation time) and one
`price_history` row (with the capture timestamp) per validated product; the
current rows are upserted with `on_conflict="store_product_id"` (the table
has `UNIQUE(store_product_id)`), the history rows are plainly inserted —
`price_history` has no uniqueness constraint beyond its generated id. -/

/-- A product dict as it flows through the validation and write stages.
Fields read with `.get` are `Option`s; a validated product always carries a
price, so the write stage reads the price with default 0. -/
structure PipelineProduct where
  id : String
  name : Option String
  category : Option String
  store_product_id : String
  price : Option ℚ
  original_price : Option ℚ
  discount_percentage : Option ℚ
  is_promotion : Option Bool
  promotion_text : Option String
  scraped_at : ℚ
deriving DecidableEq

/-- Data validation: the error list built by `validate_product_data`. -/
def validate_product_data (p : PipelineProduct) : List String :=
  (match p.name with
   | none => ["Product name too short"]
   | some s => if s.length < 3 then ["Product name too short"] else []) ++
  (if p.price.getD 0 ≤ 0 then ["Invalid price"] else []) ++
  (match p.category with
   | none => ["Missing category"]
   | some c => if c = "" then ["Missing category"] else [])

/-- Modelled from the spec: `validate_single_price`, whose body is not in the
repository snapshot (only its caller `validate_prices` is), reports a product
as valid when the business-rule validation of `validate_product_data` finds
no errors. -/
def validate_single_price (p : PipelineProduct) : Bool :=
  validate_product_data p = []

/-- PriceValidationAgent.validate_prices: valid products are kept, invalid
ones are diverted to the `validation_errors` list. -/
def validate_prices :
    List PipelineProduct → List PipelineProduct × List (String × List String)
  | [] => ([], [])
  | p :: rest =>
    let r := validate_prices rest
    if validate_single_price p then (p :: r.1, r.2)
    else (r.1, (p.id, validate_product_data p) :: r.2)

/-- A row of the `current_prices` table. -/
structure CurrentPriceRow where
  store_product_id : String
  price : ℚ
  original_price : Option ℚ
  discount_percentage : Option ℚ
  is_promotion : Bool
  promotion_text : Option String
  last_updated : ℚ
deriving DecidableEq

/-- A row of the `price_history` table. -/
structure PriceHistoryRow where
  store_product_id : String
  price : ℚ
  original_price : Option ℚ
  discount_percentage : Option ℚ
  is_promotion : Bool
  promotion_text : Option String
  scraped_at : ℚ
deriving DecidableEq

/-- Row construction of DatabaseOperationsAgent.update_prices: one
current-price row and one history row per validated product; `now` is the
`datetime.now()` read at translation time. -/
def update_prices_rows (now : ℚ) (validated : List PipelineProduct) :
    List CurrentPriceRow × List PriceHistoryRow :=
  (validated.map fun p =>
    ⟨p.store_product_id, p.price.getD 0, p.original_price, p.discount_percentage,
      p.is_promotion.getD false, p.promotion_text, now⟩,
   validated.map fun p =>
    ⟨p.store_product_id, p.price.getD 0, p.original_price, p.discount_percentage,
      p.is_promotion.getD false, p.promotion_text, p.scraped_at⟩)

/-- Upsert of one row keyed on `store_product_id`
(`UNIQUE(store_product_id)`): the table keeps exactly one latest-observation
row per key, modelled as a map from key to row. -/
def upsertCurrent (tbl : String → Option CurrentPriceRow) (r : CurrentPriceRow) :
    String → Option CurrentPriceRow :=
  fun k => if k = r.store_product_id then some r else tbl k

/-- Upsert of a list of rows, in order (`on_conflict="store_product_id"`). -/
def applyCurrentUpserts :
    List CurrentPriceRow → (String → Option CurrentPriceRow) →
      (String → Option CurrentPriceRow)
  | [], tbl => tbl
  | r :: rs, tbl => applyCurrentUpserts rs (upsertCurrent tbl r)

/-- The Catalog Store state touched by `update_prices`: the keyed
`current_prices` table and the append-only `price_history` table. -/
structure CatalogStore where
  current_prices : String → Option CurrentPriceRow
  price_history : List PriceHistoryRow

/-- Execution of the two statements of `update_prices`: upsert the current
rows, append the history rows. -/
def commitWrites (w : List CurrentPriceRow × List PriceHistoryRow)
    (s : CatalogStore) : CatalogStore :=
  ⟨applyCurrentUpserts w.1 s.current_prices, s.price_history ++ w.2⟩

/-- Evaluation of a batch of keyed upserts: the last write to a key wins;
keys never written keep their previous row. -/
theorem applyCurrentUpserts_eval :
    ∀ (rs : List CurrentPriceRow) (tbl : String → Option CurrentPriceRow)
      (k : String),
      applyCurrentUpserts rs tbl k
        = match rs.reverse.find? (fun r => decide (k = r.store_product_id)) with
          | some r => some r
          | none => tbl k
  | [], tbl, k => by simp [applyCurrentUpserts]
  | r :: rs, tbl, k => by
      rw [applyCurrentUpserts, applyCurrentUpserts_eval rs _ k, List.reverse_cons,
        List.find?_append]
      cases hf : rs.reverse.find? (fun r => decide (k = r.store_product_id)) with
      | some r' => simp [hf]
      | none =>
          simp only [hf, Option.none_orElse]
          by_cases hk : k = r.store_product_id
          · simp [List.find?, hk, upsertCurrent]
          · simp [List.find?, hk, upsertCurrent]

/-- Re-applying the same batch of keyed upserts changes nothing. -/
theorem applyCurrentUpserts_idem (rs : List CurrentPriceRow)
    (tbl : String → Option CurrentPriceRow) :
    applyCurrentUpserts rs (applyCurrentUpserts rs tbl) = applyCurrentUpserts rs tbl := by
  funext k
  rw [applyCurrentUpserts_eval, applyCurrentUpserts_eval]
  cases hf : rs.reverse.find? (fun r => decide (k = r.store_product_id)) with
  | some r => rfl
  | none => rfl

/-- A concrete valid pipeline product used in concrete instances. -/
def examplePipelineProduct : PipelineProduct :=
  ⟨"i1", some "Nutrilon Baby Formula", some "baby", "sp1", some 5, none, none,
    none, none, 100⟩

/-- The empty Catalog Store. -/
def emptyCatalogStore : CatalogStore := ⟨fun _ => none, []⟩

/-! ### Claims C2 and C7 -/

/-- Claim C2 counterexample: committing the translated write set of a
one-product batch twice leaves two (duplicated) history rows, not one —
`price_history` inserts are keyed only by a generated id, not by
(entity, provider, capture timestamp) — so the state after the second
application differs from the state after the first. -/
theorem C2_counterexample :
    (commitWrites (update_prices_rows 0 [examplePipelineProduct])
      (commitWrites (update_prices_rows 0 [examplePipelineProduct])
        emptyCatalogStore)).price_history.length = 2 ∧
    (commitWrites (update_prices_rows 0 [examplePipelineProduct])
      emptyCatalogStore).price_history.length = 1 ∧
    commitWrites (update_prices_rows 0 [examplePipelineProduct])
      (commitWrites (update_prices_rows 0 [examplePipelineProduct])
        emptyCatalogStore)
      ≠ commitWrites (update_prices_rows 0 [examplePipelineProduct])
          emptyCatalogStore := by
  refine ⟨rfl, rfl, fun h => ?_⟩
  have h2 : (2 : Nat) = 1 := congrArg (fun st => st.price_history.length) h
  exact absurd h2 (by decide)

/-- Claim C2 (amended): applying the translated write set of a batch twice
leaves the `current_prices` table exactly as after one application — still
one latest-observation row per (entity, provider) key — but appends the
history rows again: each application appends one history row per
observation, because `price_history` inserts are not keyed by
(entity, provider, capture timestamp). -/
theorem C2_reapplication_keeps_current_duplicates_history (now : ℚ)
    (batch : List PipelineProduct) (s : CatalogStore) :
    (commitWrites (update_prices_rows now batch)
        (commitWrites (update_prices_rows now batch) s)).current_prices
      = (commitWrites (update_prices_rows now batch) s).current_prices ∧
    (commitWrites (update_prices_rows now batch)
        (commitWrites (update_prices_rows now batch) s)).price_history.length
      = s.price_history.length + 2 * batch.length := by
  constructor
  · exact applyCurrentUpserts_idem _ _
  · simp only [commitWrites, update_prices_rows, List.length_append, List.length_map]
    omega

/-- Validation reports the "Invalid price" error exactly when the observed
value (defaulting to 0 when absent) is non-positive. -/
theorem invalid_price_mem (p : PipelineProduct) :
    "Invalid price" ∈ validate_product_data p ↔ p.price.getD 0 ≤ 0 := by
  rw [validate_product_data]
  by_cases hp : p.price.getD 0 ≤ 0
  · rw [if_pos hp]
    refine iff_of_true ?_ hp
    simp
  · rw [if_neg hp]
    refine iff_of_false ?_ hp
    intro hmem
    rcases hn : p.name with _ | s <;> rcases hc : p.category with _ | c <;>
      rw [hn, hc] at hmem <;>
      simp only [List.mem_append, List.mem_singleton, List.not_mem_nil] at hmem <;>
      first
        | (split_ifs at hmem <;> revert hmem <;> decide)
        | (revert hmem; decide)

/-- Every product kept by `validate_prices` passed validation with no
errors. -/
theorem mem_validated :
    ∀ (l : List PipelineProduct) (p : PipelineProduct),
      p ∈ (validate_prices l).1 → validate_product_data p = []
  | q :: rest, p, h => by
      rw [validate_prices] at h
      by_cases hq : validate_single_price q = true
      · simp only [hq, if_true] at h
        rcases List.mem_cons.mp h with h | h
        · subst h
          exact of_decide_eq_true hq
        · exact mem_validated rest p h
      · simp only [eq_false_of_ne_true hq, if_false] at h
        exact mem_validated rest p h

/-- Claim C7 (confirmed): validation reports the invalid-price error exactly
when the observed value (reading an absent value as 0, as
`product.get('price', 0)` does) is less than or equal to zero, and every row
of the translated write set of a validated batch — the latest-observation
upsert and the history insert alike — carries a strictly positive value, so
non-positive observations never reach the Catalog Store. -/
theorem C7_committed_observations_positive :
    (∀ p : PipelineProduct,
        "Invalid price" ∈ validate_product_data p ↔ p.price.getD 0 ≤ 0) ∧
      (∀ (now : ℚ) (batch : List PipelineProduct) (r : CurrentPriceRow),
        r ∈ (update_prices_rows now (validate_prices batch).1).1 → 0 < r.price) ∧
      (∀ (now : ℚ) (batch : List PipelineProduct) (hr : PriceHistoryRow),
        hr ∈ (update_prices_rows now (validate_prices batch).1).2 → 0 < hr.price) := by
  refine ⟨invalid_price_mem, ?_, ?_⟩
  · intro now batch r hr
    obtain ⟨p, hp, hpr⟩ := List.mem_map.mp hr
    have hv := mem_validated batch p hp
    have : ¬ (p.price.getD 0 ≤ 0) := by
      intro hle
      have := (invalid_price_mem p).mpr hle
      rw [hv] at this
      exact List.not_mem_nil _ this
    rw [← hpr]
    exact lt_of_not_le this
  · intro now batch hrow hmem
    obtain ⟨p, hp, hpr⟩ := List.mem_map.mp hmem
    have hv := mem_validated batch p hp
    have : ¬ (p.price.getD 0 ≤ 0) := by
      intro hle
      have := (invalid_price_mem p).mpr hle
      rw [hv] at this
      exact List.not_mem_nil _ this
    rw [← hpr]
    exact lt_of_not_le this

/-- Concrete instance of `C7_committed_observations_positive`: the
current-price row translated from a validated example product has a strictly
positive price. -/
theorem C7_witness :
    0 < (CurrentPriceRow.mk "sp1" 5 none none false none 0).price :=
  C7_committed_observations_positive.2.1 0 [examplePipelineProduct]
    (CurrentPriceRow.mk "sp1" 5 none none false none 0)
    (by decide)

/-! ## Name normalization (troubleshooting guide)

    def normalize_product_name(name):
        normalized = ' '.join(name.split()).lower()
        normalized = re.sub(r'^(ah|jumbo|dirk)\s+', '', normalized)
        return normalized

`str.split()` yields the maximal whitespace-free runs; the regex removes one
leading occurrence of `ah`, `jumbo` or `dirk` followed by a run of
whitespace.  Being a pure function, the embedding derives exactly one
canonical name per raw name. -/

/-- Implementation of Python `str.split()`: `acc` holds the current
whitespace-free run, reversed. -/
def wordsGo : List Char → List Char → List (List Char)
  | [], acc => if acc.isEmpty then [] else [acc.reverse]
  | c :: cs, acc =>
    if c.isWhitespace then
      if acc.isEmpty then wordsGo cs [] else acc.reverse :: wordsGo cs []
    else wordsGo cs (c :: acc)

/-- Python `name.split()`. -/
def words (l : List Char) : List (List Char) := wordsGo l []

/-- Python `' '.join(ws)`. -/
def joinSpace : List (List Char) → List Char
  | [] => []
  | [w] => w
  | w :: v :: ws => w ++ ' ' :: joinSpace (v :: ws)

/-- Python `' '.join(name.split())`. -/
def collapseWs (l : List Char) : List Char := joinSpace (words l)

/-- One alternative of the regex `^(w)\s+`: when `l` starts with `w` followed
by at least one whitespace character, drop the word and the whitespace run. -/
def stripWordAndSpace (w l : List Char) : Option (List Char) :=
  if l.take w.length = w then
    match l.drop w.length with
    | [] => none
    | c :: rest =>
      if c.isWhitespace then
        some (List.dropWhile Char.isWhitespace (c :: rest))
      else none
  else none

/-- Application of `re.sub(r'^(ah|jumbo|dirk)\s+', '', l)`: the three
alternatives are mutually exclusive at the anchored position. -/
def stripStorePref (l : List Char) : List Char :=
  match stripWordAndSpace "ah".toList l with
  | some r => r
  | none =>
    match stripWordAndSpace "jumbo".toList l with
    | some r => r
    | none =>
      match stripWordAndSpace "dirk".toList l with
      | some r => r
      | none => l

/-- Embedding of normalize_product_name. -/
def normalize_product_name (l : List Char) : List Char :=
  stripStorePref (lowerChars (collapseWs l))

/-! Character-level facts about `Char.toLower` used below. -/

theorem char_toNat_ofNat_valid (n : Nat) (h : n.isValidChar) :
    (Char.ofNat n).toNat = n := by
  simp only [Char.ofNat]
  rw [dif_pos h]
  rfl

theorem char_toNat_inj {c d : Char} (h : c.toNat = d.toNat) : c = d := by
  have h2 := congrArg Char.ofNat h
  rwa [Char.ofNat_toNat, Char.ofNat_toNat] at h2

theorem char_eq_iff_toNat (c d : Char) : c = d ↔ c.toNat = d.toNat :=
  ⟨fun h => congrArg _ h, char_toNat_inj⟩

theorem char_isWhitespace_iff (c : Char) :
    c.isWhitespace = true ↔
      (c.toNat = 32 ∨ c.toNat = 9 ∨ c.toNat = 13 ∨ c.toNat = 10) := by
  have h32 : (' ' : Char).toNat = 32 := rfl
  have h9 : ('\t' : Char).toNat = 9 := rfl
  have h13 : ('\r' : Char).toNat = 13 := rfl
  have h10 : ('\n' : Char).toNat = 10 := rfl
  rw [Char.isWhitespace]
  simp only [Bool.or_eq_true, decide_eq_true_eq, char_eq_iff_toNat, h32, h9, h13, h10]
  tauto

theorem toLower_toNat (c : Char) (h : 65 ≤ c.toNat ∧ c.toNat ≤ 90) :
    (Char.toLower c).toNat = c.toNat + 32 := by
  simp only [Char.toLower]
  rw [if_pos ⟨h.1, h.2⟩]
  exact char_toNat_ofNat_valid _ (Or.inl (by omega))

theorem toLower_eq_self (c : Char) (h : ¬(65 ≤ c.toNat ∧ c.toNat ≤ 90)) :
    Char.toLower c = c := by
  simp only [Char.toLower]
  rw [if_neg h]

theorem toLower_idem (c : Char) :
    Char.toLower (Char.toLower c) = Char.toLower c := by
  by_cases h : 65 ≤ c.toNat ∧ c.toNat ≤ 90
  · have h1 := toLower_toNat c h
    apply toLower_eq_self
    rw [h1]
    omega
  · rw [toLower_eq_self c h, toLower_eq_self c h]

theorem toLower_isWhitespace (c : Char) :
    (Char.toLower c).isWhitespace = c.isWhitespace := by
  by_cases h : 65 ≤ c.toNat ∧ c.toNat ≤ 90
  · have h1 := toLower_toNat c h
    have hf1 : (Char.toLower c).isWhitespace = false := by
      apply Bool.eq_false_iff.mpr
      rw [Ne, char_isWhitespace_iff, h1]
      omega
    have hf2 : c.isWhitespace = false := by
      apply Bool.eq_false_iff.mpr
      rw [Ne, char_isWhitespace_iff]
      omega
    rw [hf1, hf2]
  · rw [toLower_eq_self c h]

/-! List-level facts about `words`, `joinSpace` and `stripStorePref`. -/

/-- Every run produced by `wordsGo` is nonempty and whitespace-free. -/
theorem wordsGo_good :
    ∀ (l acc : List Char), (∀ c ∈ acc, c.isWhitespace = false) →
      ∀ w ∈ wordsGo l acc, w ≠ [] ∧ ∀ c ∈ w, c.isWhitespace = false
  | [], acc, hacc, w, hw => by
      rw [wordsGo] at hw
      by_cases he : acc.isEmpty
      · rw [if_pos he] at hw
        exact absurd hw (List.not_mem_nil w)
      · rw [if_neg he] at hw
        rw [List.mem_singleton] at hw
        subst hw
        refine ⟨fun hnil => he ?_, fun c hc => hacc c (List.mem_reverse.mp hc)⟩
        rw [List.isEmpty_iff, ← List.reverse_eq_nil_iff, hnil]
  | c :: cs, acc, hacc, w, hw => by
      rw [wordsGo] at hw
      by_cases hws : c.isWhitespace = true
      · rw [if_pos hws] at hw
        by_cases he : acc.isEmpty
        · rw [if_pos he] at hw
          exact wordsGo_good cs [] (by intro x hx; exact absurd hx (List.not_mem_nil x)) w hw
        · rw [if_neg he] at hw
          rcases List.mem_cons.mp hw with hw | hw
          · subst hw
            refine ⟨fun hnil => he ?_, fun x hx => hacc x (List.mem_reverse.mp hx)⟩
            rw [List.isEmpty_iff, ← List.reverse_eq_nil_iff, hnil]
          · exact wordsGo_good cs []
              (by intro x hx; exact absurd hx (List.not_mem_nil x)) w hw
      · rw [if_neg hws] at hw
        refine wordsGo_good cs (c :: acc) ?_ w hw
        intro x hx
        rcases List.mem_cons.mp hx with hx | hx
        · subst hx
          exact Bool.eq_false_iff.mpr hws
        · exact hacc x hx

theorem words_good (l : List Char) :
    ∀ w ∈ words l, w ≠ [] ∧ ∀ c ∈ w, c.isWhitespace = false :=
  wordsGo_good l [] (by intro x hx; exact absurd hx (List.not_mem_nil x))

/-- The join of nonempty words is nonempty. -/
theorem joinSpace_ne_nil :
    ∀ (w : List Char) (ws : List (List Char)), w ≠ [] → joinSpace (w :: ws) ≠ []
  | w, [], hw => by rw [joinSpace]; exact hw
  | w, v :: ws, hw => by
      rw [joinSpace]
      intro h
      exact hw (List.append_eq_nil.mp h).1

/-- Whitespace inside a join of whitespace-free words is the separator. -/
theorem joinSpace_mem_ws :
    ∀ ws : List (List Char), (∀ w ∈ ws, ∀ c ∈ w, c.isWhitespace = false) →
      ∀ c ∈ joinSpace ws, c.isWhitespace = true → c = ' '
  | [], _, c, hc, _ => absurd hc (List.not_mem_nil c)
  | [w], h, c, hc, hws => by
      rw [joinSpace] at hc
      rw [h w (List.mem_singleton.mpr rfl) c hc] at hws
      exact absurd hws (by simp)
  | w :: v :: ws, h, c, hc, hws => by
      rw [joinSpace, List.mem_append] at hc
      rcases hc with hc | hc
      · rw [h w (List.mem_cons_self _ _) c hc] at hws
        exact absurd hws (by simp)
      · rcases List.mem_cons.mp hc with hc | hc
        · exact hc
        · exact joinSpace_mem_ws (v :: ws)
            (fun x hx => h x (List.mem_cons_of_mem _ hx)) c hc hws

/-- The head of a join of good words is not whitespace. -/
theorem joinSpace_head :
    ∀ ws : List (List Char), (∀ w ∈ ws, w ≠ [] ∧ ∀ c ∈ w, c.isWhitespace = false) →
      ∀ c, (joinSpace ws).head? = some c → c.isWhitespace = false
  | [], _, c, hc => by rw [joinSpace] at hc; exact absurd hc (by simp)
  | [w], h, c, hc => by
      rw [joinSpace] at hc
      exact (h w (List.mem_singleton.mpr rfl)).2 c (List.mem_of_mem_head? hc)
  | w :: v :: ws, h, c, hc => by
      rw [joinSpace] at hc
      obtain ⟨hw, hnw⟩ := h w (List.mem_cons_self _ _)
      rcases hhw : w.head? with _ | d
      · exact absurd (List.head?_eq_none_iff.mp hhw) hw
      · rw [List.head?_append_of_ne_nil _ hw] at hc
        rw [hhw] at hc
        injection hc with hc
        subst hc
        exact hnw d (List.mem_of_mem_head? hhw)

/-- The last character of a join of good words is not whitespace. -/
theorem joinSpace_getLast :
    ∀ ws : List (List Char), (∀ w ∈ ws, w ≠ [] ∧ ∀ c ∈ w, c.isWhitespace = false) →
      ∀ c, (joinSpace ws).getLast? = some c → c.isWhitespace = false
  | [], _, c, hc => by rw [joinSpace] at hc; exact absurd hc (by simp)
  | [w], h, c, hc => by
      rw [joinSpace] at hc
      exact (h w (List.mem_singleton.mpr rfl)).2 c (List.mem_of_mem_getLast? hc)
  | w :: v :: ws, h, c, hc => by
      rw [joinSpace, List.getLast?_append] at hc
      have hv : joinSpace (v :: ws) ≠ [] :=
        joinSpace_ne_nil v ws (h v (List.mem_cons_of_mem _ (List.mem_cons_self _ _))).1
      rcases hjv : (joinSpace (v :: ws)).getLast? with _ | d
      · exact absurd (List.getLast?_eq_none_iff.mp hjv) hv
      · have : (' ' :: joinSpace (v :: ws)).getLast? = some d := by
          rw [show (' ' :: joinSpace (v :: ws)) = [' '] ++ joinSpace (v :: ws) from rfl,
            List.getLast?_append, hjv]
          rfl
        rw [this] at hc
        injection hc with hc
        rw [hc] at hjv
        exact joinSpace_getLast (v :: ws)
          (fun x hx => h x (List.mem_cons_of_mem _ hx)) c hjv

/-- A whitespace-free run has no two adjacent whitespace characters. -/
theorem chain'_no_ws (w : List Char) (h : ∀ c ∈ w, c.isWhitespace = false) :
    List.Chain' (fun a b : Char => ¬(a.isWhitespace = true ∧ b.isWhitespace = true)) w := by
  induction w with
  | nil => exact List.chain'_nil
  | cons a l ih =>
      rw [List.chain'_cons']
      refine ⟨?_, ih fun c hc => h c (List.mem_cons_of_mem _ hc)⟩
      intro y _ hy
      rw [h a (List.mem_cons_self _ _)] at hy
      exact Bool.false_ne_true hy.1

/-- A join of good words has no two adjacent whitespace characters. -/
theorem joinSpace_chain :
    ∀ ws : List (List Char), (∀ w ∈ ws, w ≠ [] ∧ ∀ c ∈ w, c.isWhitespace = false) →
      List.Chain' (fun a b : Char => ¬(a.isWhitespace = true ∧ b.isWhitespace = true))
        (joinSpace ws)
  | [], _ => by rw [joinSpace]; exact List.chain'_nil
  | [w], h => by
      rw [joinSpace]
      exact chain'_no_ws w (h w (List.mem_singleton.mpr rfl)).2
  | w :: v :: ws, h => by
      rw [joinSpace, List.chain'_append]
      obtain ⟨hw, hnw⟩ := h w (List.mem_cons_self _ _)
      have hrest := fun x hx => h x (List.mem_cons_of_mem _ hx)
      refine ⟨chain'_no_ws w hnw, ?_, ?_⟩
      · rw [List.chain'_cons']
        refine ⟨?_, joinSpace_chain (v :: ws) hrest⟩
        intro y hy hcon
        rw [joinSpace_head (v :: ws) hrest y hy] at hcon
        exact Bool.false_ne_true hcon.2
      · intro x hx y _ hcon
        rw [hnw x (List.mem_of_mem_getLast? hx)] at hcon
        exact Bool.false_ne_true hcon.1

/-- The head of a `dropWhile` does not satisfy the dropped predicate. -/
theorem head?_dropWhile (p : Char → Bool) :
    ∀ (l : List Char) (c : Char), (l.dropWhile p).head? = some c → p c = false
  | [], c, h => by rw [List.dropWhile] at h; exact absurd h (by simp)
  | a :: l, c, h => by
      rw [List.dropWhile_cons] at h
      by_cases hp : p a = true
      · rw [if_pos hp] at h
        exact head?_dropWhile p l c h
      · rw [if_neg hp] at h
        injection h with h
        rw [← h]
        exact Bool.eq_false_iff.mpr hp

/-- A successful prefix strip yields a suffix of the input whose head is not
whitespace. -/
theorem stripWordAndSpace_some {w m r : List Char}
    (h : stripWordAndSpace w m = some r) :
    r <:+ m ∧ ∀ c, r.head? = some c → c.isWhitespace = false := by
  rw [stripWordAndSpace] at h
  by_cases ht : m.take w.length = w
  · rw [if_pos ht] at h
    rcases hd : m.drop w.length with _ | ⟨c, rest⟩
    · rw [hd] at h
      exact absurd h (by simp)
    · rw [hd] at h
      have h2 : (if c.isWhitespace = true then
          some (List.dropWhile Char.isWhitespace (c :: rest)) else none) = some r := h
      by_cases hws : c.isWhitespace = true
      · rw [if_pos hws] at h2
        injection h2 with h2
        subst h2
        constructor
        · exact (List.dropWhile_suffix _).trans (hd ▸ List.drop_suffix _ m)
        · exact fun x hx => head?_dropWhile _ _ x hx
      · rw [if_neg hws] at h2
        exact absurd h2 (by simp)
  · rw [if_neg ht] at h
    exact absurd h (by simp)

/-- The regex substitution either leaves the string unchanged or removes a
leading fragment, leaving a suffix whose head is not whitespace. -/
theorem stripStorePref_cases (m : List Char) :
    stripStorePref m = m ∨
      (stripStorePref m <:+ m ∧
        ∀ c, (stripStorePref m).head? = some c → c.isWhitespace = false) := by
  rcases h1 : stripWordAndSpace "ah".toList m with _ | r1
  · rcases h2 : stripWordAndSpace "jumbo".toList m with _ | r2
    · rcases h3 : stripWordAndSpace "dirk".toList m with _ | r3
      · left
        rw [stripStorePref, h1, h2, h3]
      · right
        rw [stripStorePref, h1, h2, h3]
        exact stripWordAndSpace_some h3
    · right
      rw [stripStorePref, h1, h2]
      exact stripWordAndSpace_some h2
  · right
    rw [stripStorePref, h1]
    exact stripWordAndSpace_some h1

/-- A map that fixes every member fixes the list. -/
theorem map_eq_self_of_mem {f : Char → Char} :
    ∀ l : List Char, (∀ c ∈ l, f c = c) → l.map f = l
  | [], _ => rfl
  | a :: l, h => by
      rw [List.map_cons, h a (List.mem_cons_self _ _),
        map_eq_self_of_mem l fun c hc => h c (List.mem_cons_of_mem _ hc)]

/-- Evaluation of the substitution on a string starting with `ah` and
whitespace. -/
theorem stripStorePref_ah (rest : List Char) :
    stripStorePref ("ah".toList ++ ' ' :: rest)
      = List.dropWhile Char.isWhitespace rest := by
  have e1 : stripWordAndSpace "ah".toList ("ah".toList ++ ' ' :: rest)
      = some (List.dropWhile Char.isWhitespace rest) := by
    rw [stripWordAndSpace, if_pos (List.take_left _ _), List.drop_left]
    show (if (' ' : Char).isWhitespace = true then
        some (List.dropWhile Char.isWhitespace (' ' :: rest)) else none)
      = some (List.dropWhile Char.isWhitespace rest)
    rw [if_pos (by decide), List.dropWhile_cons, if_pos (by decide)]
  rw [stripStorePref, e1]

/-- Evaluation of the substitution on a string starting with `jumbo` and
whitespace. -/
theorem stripStorePref_jumbo (rest : List Char) :
    stripStorePref ("jumbo".toList ++ ' ' :: rest)
      = List.dropWhile Char.isWhitespace rest := by
  have e0 : stripWordAndSpace "ah".toList ("jumbo".toList ++ ' ' :: rest) = none := by
    refine if_neg fun hcon => ?_
    have h2 : (['j', 'u'] : List Char) = "ah".toList := hcon
    exact absurd h2 (by decide)
  have e1 : stripWordAndSpace "jumbo".toList ("jumbo".toList ++ ' ' :: rest)
      = some (List.dropWhile Char.isWhitespace rest) := by
    rw [stripWordAndSpace, if_pos (List.take_left _ _), List.drop_left]
    show (if (' ' : Char).isWhitespace = true then
        some (List.dropWhile Char.isWhitespace (' ' :: rest)) else none)
      = some (List.dropWhile Char.isWhitespace rest)
    rw [if_pos (by decide), List.dropWhile_cons, if_pos (by decide)]
  rw [stripStorePref, e0, e1]

/-- Evaluation of the substitution on a string starting with `dirk` and
whitespace. -/
theorem stripStorePref_dirk (rest : List Char) :
    stripStorePref ("dirk".toList ++ ' ' :: rest)
      = List.dropWhile Char.isWhitespace rest := by
  have e0 : stripWordAndSpace "ah".toList ("dirk".toList ++ ' ' :: rest) = none := by
    refine if_neg fun hcon => ?_
    have h2 : (['d', 'i'] : List Char) = "ah".toList := hcon
    exact absurd h2 (by decide)
  have e1 : stripWordAndSpace "jumbo".toList ("dirk".toList ++ ' ' :: rest) = none := by
    refine if_neg fun hcon => ?_
    have h2 : (['d', 'i', 'r', 'k', ' '] : List Char) = "jumbo".toList := hcon
    exact absurd h2 (by decide)
  have e2 : stripWordAndSpace "dirk".toList ("dirk".toList ++ ' ' :: rest)
      = some (List.dropWhile Char.isWhitespace rest) := by
    rw [stripWordAndSpace, if_pos (List.take_left _ _), List.drop_left]
    show (if (' ' : Char).isWhitespace = true then
        some (List.dropWhile Char.isWhitespace (' ' :: rest)) else none)
      = some (List.dropWhile Char.isWhitespace rest)
    rw [if_pos (by decide), List.dropWhile_cons, if_pos (by decide)]
  rw [stripStorePref, e0, e1, e2]

/-! ### Claim C9 -/

/-- Claim C9 counterexample: the prefix of provider Etos (a store of the
catalog, added by migration 20240308) is not stripped — `re.sub` names only
`ah`, `jumbo` and `dirk` — so the canonical name of an Etos product keeps the
provider prefix, while an Albert Heijn (`AH`) product has it stripped. -/
theorem C9_counterexample :
    normalize_product_name "Etos  Vitamine C".toList = "etos vitamine c".toList ∧
      normalize_product_name "AH  Vitamine C".toList = "vitamine c".toList := by
  constructor <;> decide

/-- Claim C9 (amended): normalization is a deterministic pure function
deriving exactly one canonical-name candidate per raw name, with no history
lookup; the canonical name is the raw name lower-cased (a fixed point of
lower-casing), with whitespace collapsed to single spaces and none leading or
trailing, and with the provider prefix stripped from the front only for the
fixed providers `ah`, `jumbo` and `dirk` — when the collapsed lower-cased
name starts with none of those three prefixes (each followed by whitespace),
it is returned unchanged. -/
theorem C9_normalize_shape (l : List Char) :
    lowerChars (normalize_product_name l) = normalize_product_name l ∧
      (∀ c ∈ normalize_product_name l, c.isWhitespace = true → c = ' ') ∧
      (∀ c, (normalize_product_name l).head? = some c → c.isWhitespace = false) ∧
      (∀ c, (normalize_product_name l).getLast? = some c → c.isWhitespace = false) ∧
      List.Chain' (fun a b : Char => ¬(a.isWhitespace = true ∧ b.isWhitespace = true))
        (normalize_product_name l) ∧
      (∀ rest : List Char,
        (lowerChars (collapseWs l) = "ah".toList ++ ' ' :: rest ∨
          lowerChars (collapseWs l) = "jumbo".toList ++ ' ' :: rest ∨
          lowerChars (collapseWs l) = "dirk".toList ++ ' ' :: rest) →
        normalize_product_name l = List.dropWhile Char.isWhitespace rest) ∧
      ((stripWordAndSpace "ah".toList (lowerChars (collapseWs l)) = none ∧
          stripWordAndSpace "jumbo".toList (lowerChars (collapseWs l)) = none ∧
          stripWordAndSpace "dirk".toList (lowerChars (collapseWs l)) = none) →
        normalize_product_name l = lowerChars (collapseWs l)) := by
  have hw := words_good l
  have hm_mem := joinSpace_mem_ws (words l) fun w hww => (hw w hww).2
  have hm_head := joinSpace_head (words l) hw
  have hm_last := joinSpace_getLast (words l) hw
  have hm_chain := joinSpace_chain (words l) hw
  -- properties of the lower-cased collapsed name
  have hB2 : ∀ c ∈ lowerChars (collapseWs l), c.isWhitespace = true → c = ' ' := by
    intro c hc hws
    obtain ⟨x, hx, hxc⟩ := List.mem_map.mp hc
    have hxw : x.isWhitespace = true := by
      rw [← toLower_isWhitespace, hxc]
      exact hws
    rw [← hxc, hm_mem x hx hxw]
    decide
  have hC2 : ∀ c, (lowerChars (collapseWs l)).head? = some c → c.isWhitespace = false := by
    intro c hc
    rw [lowerChars, List.head?_map] at hc
    rcases hh : (collapseWs l).head? with _ | x
    · rw [hh] at hc
      exact absurd hc (by simp)
    · rw [hh] at hc
      injection hc with hc
      rw [← hc, toLower_isWhitespace]
      exact hm_head x hh
  have hD2 : ∀ c, (lowerChars (collapseWs l)).getLast? = some c → c.isWhitespace = false := by
    intro c hc
    rw [lowerChars, List.getLast?_map] at hc
    rcases hh : (collapseWs l).getLast? with _ | x
    · rw [hh] at hc
      exact absurd hc (by simp)
    · rw [hh] at hc
      injection hc with hc
      rw [← hc, toLower_isWhitespace]
      exact hm_last x hh
  have hE2 : List.Chain'
      (fun a b : Char => ¬(a.isWhitespace = true ∧ b.isWhitespace = true))
      (lowerChars (collapseWs l)) := by
    rw [lowerChars, List.chain'_map]
    refine List.Chain'.imp ?_ hm_chain
    intro a b hab hcon
    apply hab
    rw [← toLower_isWhitespace a, ← toLower_isWhitespace b]
    exact hcon
  -- the stripped name is a suffix of the lower-cased collapsed name
  have hsub : ∀ c ∈ normalize_product_name l, c ∈ lowerChars (collapseWs l) := by
    rcases stripStorePref_cases (lowerChars (collapseWs l)) with hcase | ⟨hsuf, _⟩
    · rw [normalize_product_name, hcase]
      exact fun c hc => hc
    · exact fun c hc => hsuf.sublist.subset hc
  refine ⟨?_, ?_, ?_, ?_, ?_, ?_, ?_⟩
  · refine map_eq_self_of_mem _ ?_
    intro c hc
    obtain ⟨x, _, hxc⟩ := List.mem_map.mp (hsub c hc)
    rw [← hxc, toLower_idem]
  · exact fun c hc hws => hB2 c (hsub c hc) hws
  · rcases stripStorePref_cases (lowerChars (collapseWs l)) with hcase | ⟨_, hhead⟩
    · rw [normalize_product_name, hcase]
      exact hC2
    · exact hhead
  · rcases stripStorePref_cases (lowerChars (collapseWs l)) with hcase | ⟨hsuf, _⟩
    · rw [normalize_product_name, hcase]
      exact hD2
    · intro c hc
      obtain ⟨t, ht⟩ := hsuf
      apply hD2
      rw [← ht, List.getLast?_append]
      rw [normalize_product_name] at hc
      rw [hc]
      rfl
  · rcases stripStorePref_cases (lowerChars (collapseWs l)) with hcase | ⟨hsuf, _⟩
    · rw [normalize_product_name, hcase]
      exact hE2
    · obtain ⟨t, ht⟩ := hsuf
      rw [← ht] at hE2
      exact (List.chain'_append.mp hE2).2.1
  · intro rest hcase
    rcases hcase with h | h | h <;>
      rw [normalize_product_name, h]
    · exact stripStorePref_ah rest
    · exact stripStorePref_jumbo rest
    · exact stripStorePref_dirk rest
  · intro ⟨hA, hJ, hD⟩
    rw [normalize_product_name, stripStorePref, hA, hJ, hD]

/-- Concrete instance of `C9_normalize_shape`: a raw name starting with the
`ah` prefix has it stripped. -/
theorem C9_witness :
    normalize_product_name "AH Milk".toList
      = List.dropWhile Char.isWhitespace "milk".toList :=
  (C9_normalize_shape "AH Milk".toList).2.2.2.2.2.1 "milk".toList (Or.inl (by decide))

/-! ## Job orchestrator state machine

The backend implementing `POST /api/agents/{id}/start` is not part of the
repository snapshot — only its HTTP caller (`startAgent` in the scrapers
page), the endpoint declarations and the `scraping_jobs` table are — so the
orchestrator is modelled from the spec (§4.2, §5, §6): per-provider mutual
exclusion is enforced by the orchestrator-owned state, `start` is atomic, and
concurrent interleavings of start/promote/finish requests are the arbitrary
finite sequences of these atomic steps. -/

/-- Modelled from the spec: the Job states of §4.2 (the pre-creation `Idle`
state has no Job record). -/
inductive JState where
  | queued | running | succeeded | failed | partlyFailed
deriving DecidableEq

/-- Terminal states of §4.2. -/
def JState.isTerminal : JState → Bool
  | .queued => false
  | .running => false
  | _ => true

/-- Modelled from the spec: a Job record as the orchestrator owns it. -/
structure OrchJob where
  jid : Nat
  provider : String
  state : JState
deriving DecidableEq

/-- Modelled from the spec: the orchestrator-owned state store (map from
provider to current Jobs, with an id supply). -/
structure OrchState where
  jobs : List OrchJob
  nextId : Nat
deriving DecidableEq

/-- Synchronous validation failures of the `start` control surface. -/
inductive StartError where
  | providerUnknown | jobAlreadyRunning
deriving DecidableEq

/-- Does the provider currently have a Job in a non-terminal state? -/
def hasActive (s : OrchState) (p : String) : Bool :=
  s.jobs.any fun j => j.provider == p && !j.state.isTerminal

/-- Modelled from the spec: `POST start(provider, jobKind)` — missing from
the snapshot — is rejected with `JobAlreadyRunning` when a non-terminal Job
already exists for the provider, and otherwise atomically creates one new
`queued` Job. -/
def start (s : OrchState) (p : String) : Except StartError (OrchState × Nat) :=
  if hasActive s p then .error .jobAlreadyRunning
  else .ok ({ jobs := s.jobs ++ [⟨s.nextId, p, .queued⟩], nextId := s.nextId + 1 },
    s.nextId)

/-- The state after a `start` request: unchanged when the request is
rejected. -/
def startResult (s : OrchState) (p : String) : OrchState :=
  match start s p with
  | .error _ => s
  | .ok (s2, _) => s2

/-- Modelled from the spec: a `queued` Job enters `running` when a
concurrency slot is acquired. -/
def promote (s : OrchState) (jid : Nat) : OrchState :=
  { s with jobs := s.jobs.map fun j =>
      if j.jid == jid && j.state == JState.queued then { j with state := .running }
      else j }

/-- Modelled from the spec: a `running` Job leaves to a terminal state. -/
def finish (s : OrchState) (jid : Nat) (t : JState) : OrchState :=
  { s with jobs := s.jobs.map fun j =>
      if j.jid == jid && j.state == JState.running && t.isTerminal then
        { j with state := t }
      else j }

/-- Modelled from the spec: one atomic orchestrator step; an interleaving of
concurrent requests is a finite sequence of such steps. -/
inductive OrchStep : OrchState → OrchState → Prop where
  | start (s : OrchState) (p : String) : OrchStep s (startResult s p)
  | promote (s : OrchState) (jid : Nat) : OrchStep s (promote s jid)
  | finish (s : OrchState) (jid : Nat) (t : JState) : OrchStep s (finish s jid t)

/-- The empty orchestrator state at process start. -/
def initState : OrchState := ⟨[], 0⟩

/-- States reachable by any interleaving of requests. -/
def Reachable (s : OrchState) : Prop := Relation.ReflTransGen OrchStep initState s

/-- Number of non-terminal Jobs of a provider. -/
def activeCount (s : OrchState) (p : String) : Nat :=
  s.jobs.countP fun j => j.provider == p && !j.state.isTerminal

theorem start_preserves (s : OrchState) (p : String)
    (hinv : ∀ q, activeCount s q ≤ 1) : ∀ q, activeCount (startResult s p) q ≤ 1 := by
  intro q
  by_cases h : hasActive s p = true
  · have he : startResult s p = s := by rw [startResult, start, if_pos h]
    rw [he]
    exact hinv q
  · have he : startResult s p
        = ⟨s.jobs ++ [⟨s.nextId, p, JState.queued⟩], s.nextId + 1⟩ := by
      rw [startResult, start, if_neg h]
    rw [he, activeCount, List.countP_append]
    by_cases hq : p = q
    · subst hq
      have hz : s.jobs.countP (fun j => j.provider == p && !j.state.isTerminal) = 0 := by
        rw [List.countP_eq_zero]
        intro j hj hcon
        exact h (List.any_eq_true.mpr ⟨j, hj, hcon⟩)
      rw [hz]
      simp [List.countP_cons, JState.isTerminal]
    · have hone : List.countP (fun j => j.provider == q && !j.state.isTerminal)
          [OrchJob.mk s.nextId p JState.queued] = 0 := by
        rw [List.countP_eq_zero]
        intro j hj hcon
        rw [List.mem_singleton] at hj
        subst hj
        rw [Bool.and_eq_true, beq_iff_eq] at hcon
        exact hq hcon.1
      rw [hone]
      exact hinv q

theorem promote_activeCount (s : OrchState) (jid : Nat) (q : String) :
    activeCount (promote s jid) q = activeCount s q := by
  rw [activeCount, promote, List.countP_map, activeCount]
  apply List.countP_congr
  intro j _
  by_cases hc : (j.jid == jid && j.state == JState.queued) = true
  · have hq2 : j.state = JState.queued := by
      rw [Bool.and_eq_true, beq_iff_eq, beq_iff_eq] at hc
      exact hc.2
    simp only [Function.comp_apply, if_pos hc]
    rw [hq2]
    rfl
  · simp only [Function.comp_apply, if_neg hc]

theorem finish_activeCount (s : OrchState) (jid : Nat) (t : JState) (q : String) :
    activeCount (finish s jid t) q ≤ activeCount s q := by
  rw [activeCount, finish, List.countP_map, activeCount]
  apply List.countP_mono_left
  intro j _ hj
  by_cases hc : (j.jid == jid && j.state == JState.running && t.isTerminal) = true
  · rw [Function.comp_apply, if_pos hc] at hj
    rw [Bool.and_eq_true, Bool.and_eq_true, beq_iff_eq, beq_iff_eq] at hc
    rw [Bool.and_eq_true] at hj
    rw [show ({ j with state := t } : OrchJob).state = t from rfl, hc.2] at hj
    exact absurd hj.2 (by simp)
  · rw [Function.comp_apply, if_neg hc] at hj
    exact hj

theorem reachable_invariant (s : OrchState) (h : Reachable s) :
    ∀ p, activeCount s p ≤ 1 := by
  induction h with
  | refl => intro p; simp [activeCount, initState]
  | tail hsteps step ih =>
      cases step with
      | start p => exact start_preserves _ _ ih
      | promote jid =>
          intro q
          rw [promote_activeCount]
          exact ih q
      | finish jid t =>
          intro q
          exact le_trans (finish_activeCount _ _ _ _) (ih q)

/-! ### Claim C1 -/

/-- Claim C1 (confirmed against the spec-modelled orchestrator): in every
reachable state — reached by any interleaving of atomic start, promote and
finish steps — every provider has at most one Job in a non-terminal state,
and a start request arriving while the provider already has a non-terminal
Job is rejected with `JobAlreadyRunning`, leaving the state unchanged (no
second Job record is created). -/
theorem C1_mutual_exclusion :
    (∀ s : OrchState, Reachable s → ∀ p, activeCount s p ≤ 1) ∧
      (∀ (s : OrchState) (p : String), hasActive s p = true →
        start s p = .error .jobAlreadyRunning ∧ startResult s p = s) := by
  constructor
  · exact fun s h => reachable_invariant s h
  · intro s p h
    constructor
    · rw [start, if_pos h]
    · rw [startResult, start, if_pos h]

/-- Concrete instance of `C1_mutual_exclusion`: the initial state satisfies
the invariant, and a start request against a provider with a running Job is
rejected. -/
theorem C1_witness :
    activeCount initState "store-a" ≤ 1 ∧
      start (OrchState.mk [OrchJob.mk 0 "store-a" JState.running] 1) "store-a"
        = .error .jobAlreadyRunning :=
  ⟨C1_mutual_exclusion.1 initState Relation.ReflTransGen.refl "store-a",
    (C1_mutual_exclusion.2 (OrchState.mk [OrchJob.mk 0 "store-a" JState.running] 1)
      "store-a" (by decide)).1⟩
